import Mathlib

/-!
Shallow embedding of the core engine of the `yaz` modal text editor, and
verification of the specified properties of its document model, transaction
protocol, history, selection merging, stylizer and modal driver.

Modelling conventions:
* A rope (`ropey::Rope`) is modelled by its character sequence `List Char`;
  all indexing is in character units, as in the source.
* Rust `usize` arithmetic is modelled on `Nat`; `saturating_sub` is `Nat`
  subtraction (both truncate at zero).
* `&str::len()` (UTF-8 byte length) is modelled by summing `Char.utf8Size`;
  `str::chars().count()` is the list length.
* `HashMap` values are modelled as association lists with unique keys;
  in-place mutation through `get_mut` becomes value replacement at a key.
* Fallible operations return `Option`/`Except`; in-place mutation becomes
  explicit state passing.
-/

namespace Yaz

/-- A rope is its character sequence (`ropey::Rope`); indices count chars. -/
abbrev Rope := List Char

/-- `str::chars().count()`: the number of characters of a text. -/
def charCount (s : List Char) : Nat := s.length

/-- `str::len()` in Rust: the number of UTF-8 bytes of the text. -/
def byteLen (s : List Char) : Nat := (s.map Char.utf8Size).sum

/-- `Rope::try_insert(char_idx, text)`: fails iff the index is out of range. -/
def ropeInsert (buf : Rope) (i : Nat) (s : List Char) : Option Rope :=
  if i ≤ buf.length then some (buf.take i ++ s ++ buf.drop i) else none

/-- `Rope::get_slice(a..b)`: `some` iff `a ≤ b ≤ len_chars`. -/
def ropeSlice (buf : Rope) (a b : Nat) : Option (List Char) :=
  if a ≤ b ∧ b ≤ buf.length then some ((buf.drop a).take (b - a)) else none

/-- `Rope::try_remove(a..b)`: fails iff the range is invalid. -/
def ropeRemove (buf : Rope) (a b : Nat) : Option Rope :=
  if a ≤ b ∧ b ≤ buf.length then some (buf.take a ++ buf.drop b) else none

/-- `TextSelection(head, tail)` from cursor.rs (`sel.0` is the head). -/
structure TextSelection where
  head : Nat
  tail : Option Nat
deriving DecidableEq

/-- `BufMod` from primitive_mods.rs. -/
inductive BufMod where
  | insText (i : Nat) (s : List Char)
  | delRange (a b : Nat)
deriving DecidableEq

/-- `BufMod::apply`: mutates the rope and returns the claimed inverse.
Note the source computes the inverse end index as `char_idx + s.len()`,
i.e. with the UTF-8 *byte* length of the inserted text. -/
def BufMod.apply : BufMod → Rope → Option (BufMod × Rope)
  | .insText i s, buf =>
    (ropeInsert buf i s).map fun buf1 => (.delRange i (i + byteLen s), buf1)
  | .delRange a b, buf =>
    match ropeSlice buf a b with
    | none => none
    | some oldTxt => (ropeRemove buf a b).map fun buf1 => (.insText a oldTxt, buf1)

/-- `SelectionMod` from primitive_mods.rs. -/
inductive SelectionMod where
  | setHead (i : Nat)
  | setTail (t : Option Nat)
deriving DecidableEq

/-- `SelectionMod::apply`: always succeeds, returns the old value as inverse. -/
def SelectionMod.apply : SelectionMod → TextSelection → SelectionMod × TextSelection
  | .setHead i, sel => (.setHead sel.head, { sel with head := i })
  | .setTail t, sel => (.setTail sel.tail, { sel with tail := t })

/-- Association-list lookup, modelling `HashMap::get`. -/
def alookup (k : Nat) : List (Nat × α) → Option α
  | [] => none
  | (k1, v) :: rest => if k1 = k then some v else alookup k rest

/-- `HashMap::contains_key`. -/
def acontains (k : Nat) (l : List (Nat × α)) : Bool := (alookup k l).isSome

/-- In-place mutation through `get_mut`: replace the value stored at a key. -/
def aupdate (k : Nat) (v : α) (l : List (Nat × α)) : List (Nat × α) :=
  l.map fun kv => if kv.1 = k then (k, v) else kv

/-- `HashMap::remove`: drop the entry with the matching key. -/
def aremove (k : Nat) : List (Nat × α) → List (Nat × α)
  | [] => []
  | (k1, v) :: rest => if k1 = k then rest else (k1, v) :: aremove k rest

/-- `HashMap::insert`: overwrite the value if the key exists, else add it. -/
def ainsert (k : Nat) (v : α) (l : List (Nat × α)) : List (Nat × α) :=
  if acontains k l then aupdate k v l else l ++ [(k, v)]

/-- `Document` from document.rs. The `DocumentView` is never touched by any
operation modelled here and is omitted. -/
structure Document where
  source : Option String
  selections : List (Nat × TextSelection)
  dirty : Bool
  buf : Rope
deriving DecidableEq

/-- `DocumentMap(current id, id → document)` from document.rs. -/
structure DocumentMap where
  curr : Nat
  docs : List (Nat × Document)
deriving DecidableEq

/-- `DocumentMap::get_unused_id`: `keys().max().map(|id| id + 1).unwrap_or(0)`. -/
def getUnusedId (docs : List (Nat × Document)) : Nat :=
  match docs.map Prod.fst with
  | [] => 0
  | k :: ks => (ks.foldl max k) + 1

/-- `DocumentMap::insert`: store a document under a fresh id. -/
def DocumentMap.insertDoc (dm : DocumentMap) (d : Document) : Nat × DocumentMap :=
  let newId := getUnusedId dm.docs
  (newId, { dm with docs := ainsert newId d dm.docs })

/-- `DocMapMod` from primitive_mods.rs. -/
inductive DocMapMod where
  | switchDoc (id : Nat)
  | createDoc (d : Document)
  | popDoc (id : Nat)
  | deleteSel (docId selId : Nat)
  | createSel (docId selId : Nat) (sel : TextSelection)
deriving DecidableEq

/-- `DocMapMod::apply`. -/
def DocMapMod.apply : DocMapMod → DocumentMap → Option (DocMapMod × DocumentMap)
  | .switchDoc newId, dm =>
    if acontains newId dm.docs then
      some (.switchDoc dm.curr, { dm with curr := newId })
    else none
  | .createDoc d, dm =>
    let r := dm.insertDoc d
    some (.popDoc r.1, r.2)
  | .popDoc id, dm =>
    match alookup id dm.docs with
    | none => none
    | some d => some (.createDoc d, { dm with docs := aremove id dm.docs })
  | .deleteSel docId selId, dm =>
    match alookup docId dm.docs with
    | none => none
    | some doc =>
      match alookup selId doc.selections with
      | none => none
      | some sel =>
        some (.createSel docId selId sel,
          { dm with docs :=
              aupdate docId { doc with selections := aremove selId doc.selections } dm.docs })
  | .createSel docId selId sel, dm =>
    match alookup docId dm.docs with
    | none => none
    | some doc =>
      some (.deleteSel docId selId,
        { dm with docs :=
            aupdate docId { doc with selections := ainsert selId sel doc.selections } dm.docs })

/-- `PrimitiveMod` from primitive_mods.rs. -/
inductive PrimitiveMod where
  | sel (docId selId : Nat) (m : SelectionMod)
  | text (docId : Nat) (m : BufMod)
  | docMap (m : DocMapMod)
deriving DecidableEq

/-- `PrimitiveMod::apply`: mutate the document map, returning the inverse
primitive on success and `none` (without mutation) on failure. -/
def PrimitiveMod.apply : PrimitiveMod → DocumentMap → Option (PrimitiveMod × DocumentMap)
  | .sel docId selId smod, dm =>
    match alookup docId dm.docs with
    | none => none
    | some doc =>
      match alookup selId doc.selections with
      | none => none
      | some s =>
        let r := smod.apply s
        some (.sel docId selId r.1,
          { dm with docs :=
              aupdate docId { doc with selections := aupdate selId r.2 doc.selections } dm.docs })
  | .text docId bmod, dm =>
    match alookup docId dm.docs with
    | none => none
    | some doc =>
      match bmod.apply doc.buf with
      | none => none
      | some (binv, buf1) =>
        some (.text docId binv, { dm with docs := aupdate docId { doc with buf := buf1 } dm.docs })
  | .docMap m, dm =>
    match m.apply dm with
    | none => none
    | some (minv, dm1) => some (.docMap minv, dm1)

/-- `Transaction` from transaction.rs: an ordered list of primitives. -/
structure Transaction where
  primitiveMods : List PrimitiveMod
deriving DecidableEq

/-- The walk of `Transaction::apply_tx`: apply primitives in order, collecting
inverses in application order; stop at the first failure. -/
def applyPrims : List PrimitiveMod → DocumentMap → List PrimitiveMod × DocumentMap
  | [], dm => ([], dm)
  | p :: rest, dm =>
    match p.apply dm with
    | none => ([], dm)
    | some (pinv, dm1) =>
      let r := applyPrims rest dm1
      (pinv :: r.1, r.2)

/-- The rollback loop of `Transaction::apply_tx`: apply each primitive,
ignoring failures. -/
def applyIgnore : List PrimitiveMod → DocumentMap → DocumentMap
  | [], dm => dm
  | p :: rest, dm =>
    match p.apply dm with
    | none => applyIgnore rest dm
    | some r => applyIgnore rest r.2

/-- `Transaction::apply_tx`: on success return the reversed inverses as the
inverse transaction; on failure replay the collected inverses in reverse
order and return `none`. -/
def Transaction.applyTx (tx : Transaction) (dm : DocumentMap) :
    Option Transaction × DocumentMap :=
  let r := applyPrims tx.primitiveMods dm
  let revInvs := r.1.reverse
  if revInvs.length = tx.primitiveMods.length then (some ⟨revInvs⟩, r.2)
  else (none, applyIgnore revInvs r.2)

/-- `Transaction::map_char_idx`: project a character index through the queued
text primitives of the transaction. Guards compare against the original
`old_idx`; deletion uses `saturating_sub`. Always returns `some`. -/
def Transaction.mapCharIdx (tx : Transaction) (bufId : Nat) (oldIdx : Nat) : Option Nat :=
  some (tx.primitiveMods.foldl
    (fun newIdx pm =>
      match pm with
      | .text modBufId tmod =>
        if modBufId = bufId then
          match tmod with
          | .insText i txt => if oldIdx ≥ i then newIdx + charCount txt else newIdx
          | .delRange a b => if oldIdx > b then newIdx - (b - a) else newIdx
        else newIdx
      | _ => newIdx)
    oldIdx)

/-! ### The index-mapping rule as the specification words it (for C4) -/

/-- One projection step as the specification states it: an insert `(at, s)`
with `old_idx ≥ at` adds `char_count(s)`; a delete `(a, b)` with
`old_idx > b` subtracts `b - a` (indices are natural numbers, so the
subtraction truncates at zero); any other primitive leaves the index
unchanged. -/
def mapCharIdxSpecStep (bufId oldIdx acc : Nat) : PrimitiveMod → Nat
  | .text d (.insText i s) => if d = bufId ∧ oldIdx ≥ i then acc + charCount s else acc
  | .text d (.delRange a b) => if d = bufId ∧ oldIdx > b then acc - (b - a) else acc
  | _ => acc

/-- The specification's description of `map_char_idx` as a fold. -/
def mapCharIdxSpec (tx : Transaction) (bufId oldIdx : Nat) : Nat :=
  tx.primitiveMods.foldl (mapCharIdxSpecStep bufId oldIdx) oldIdx

/-! ### Concrete states exhibiting the byte-length inverse bug -/

/-- A document whose buffer is the two-character ASCII text `ab`, with the
single primary selection at the origin. -/
def docAB : Document :=
  { source := none, selections := [(0, ⟨0, none⟩)], dirty := false, buf := ['a', 'b'] }

/-- A document map holding only `docAB` as document 0. -/
def dmAB : DocumentMap := { curr := 0, docs := [(0, docAB)] }

/-- A transaction inserting the one-character, two-byte text `é` at index 0. -/
def txInsAccent : Transaction := ⟨[.text 0 (.insText 0 ['é'])]⟩

/-- The same insertion followed by a primitive that fails (`DelRange(5, 9)`
is out of range), forcing the rollback path of `apply_tx`. -/
def txInsAccentThenFail : Transaction :=
  ⟨[.text 0 (.insText 0 ['é']), .text 0 (.delRange 5 9)]⟩

/-! ## C1: apply-then-inverse restores the original state — refuted

`BufMod::apply` for `InsText` computes the inverse range end as
`char_idx + s.len()` with the UTF-8 byte length, while rope indices count
characters. For the one-character text `é` (2 bytes) the returned inverse is
`DelRange(0, 2)`, which removes two characters. -/

/-- C1: applying `txInsAccent` to `dmAB` succeeds and returns the inverse
transaction `DelRange(0, 2)`; applying that inverse to the post-state also
succeeds but yields a state whose document buffer is `b` — not the original
state `dmAB` (buffer `ab`). The code therefore violates the claimed
apply-then-inverse round-trip invariant. -/
theorem apply_then_inverse_fails_on_multibyte :
    (txInsAccent.applyTx dmAB).1 = some ⟨[.text 0 (.delRange 0 2)]⟩ ∧
    ((Transaction.mk [.text 0 (.delRange 0 2)]).applyTx (txInsAccent.applyTx dmAB).2).1.isSome ∧
    ((alookup 0 ((Transaction.mk [.text 0 (.delRange 0 2)]).applyTx
        (txInsAccent.applyTx dmAB).2).2.docs).map Document.buf) = some ['b'] ∧
    ((Transaction.mk [.text 0 (.delRange 0 2)]).applyTx (txInsAccent.applyTx dmAB).2).2 ≠ dmAB := by
  refine ⟨rfl, rfl, rfl, ?_⟩
  decide

/-! ## C2: the inverse of `InsText(i, s)` is `DelRange(i, i + char_count(s))` — refuted

The source computes `DelRange(*char_idx, char_idx + s.len())`, using the byte
length of `s` rather than its character count. -/

/-- C2: applying `InsText(0, "é")` to the buffer `ab` succeeds, but the
returned inverse is `DelRange(0, 2)` — the end index uses the byte length 2
of `é`, not its character count 1, so the inverse differs from the claimed
`DelRange(0, 0 + char_count("é")) = DelRange(0, 1)`. -/
theorem insText_inverse_uses_byte_length :
    BufMod.apply (.insText 0 ['é']) ['a', 'b'] = some (.delRange 0 2, ['é', 'a', 'b']) ∧
    charCount ['é'] = 1 ∧
    BufMod.delRange 0 2 ≠ BufMod.delRange 0 (0 + charCount ['é']) := by
  refine ⟨rfl, rfl, ?_⟩
  decide

/-! ## C3: a failed `apply_tx` restores the pre-call state bit-for-bit — refuted

The rollback replays the collected inverses, but an inverse collected for a
multi-byte `InsText` is the wrong `DelRange` (byte length), so the replay
does not restore the original state. -/

/-- C3: applying `txInsAccentThenFail` to `dmAB` fails (the second primitive
is out of range) and triggers the rollback, yet the state after the call has
document buffer `b` instead of the original `ab`: the rollback leaves a
corrupted state. -/
theorem failed_apply_tx_rollback_corrupts_state :
    (txInsAccentThenFail.applyTx dmAB).1 = none ∧
    ((alookup 0 (txInsAccentThenFail.applyTx dmAB).2.docs).map Document.buf) = some ['b'] ∧
    (txInsAccentThenFail.applyTx dmAB).2 ≠ dmAB := by
  refine ⟨rfl, rfl, ?_⟩
  decide

/-! ## C4: `map_char_idx` is the specified fold and never fails — confirmed -/

/-- C4: `map_char_idx` always returns a value, and that value is exactly the
fold described by the specification: an insert `(at, s)` on this document
with `old_idx ≥ at` adds `char_count(s)`; a delete `(a, b)` with
`old_idx > b` subtracts `b - a` (truncated at zero, matching
`saturating_sub`); every other primitive leaves the accumulator unchanged. -/
theorem mapCharIdx_eq_spec_fold (tx : Transaction) (bufId oldIdx : Nat) :
    tx.mapCharIdx bufId oldIdx = some (mapCharIdxSpec tx bufId oldIdx) := by
  unfold Transaction.mapCharIdx mapCharIdxSpec
  refine congrArg some ?_
  refine congrFun (congrFun (congrArg List.foldl ?_) oldIdx) tx.primitiveMods
  funext acc pm
  cases pm with
  | sel d s m => rfl
  | docMap m => rfl
  | text d m =>
    cases m with
    | insText i s =>
      by_cases hd : d = bufId <;> by_cases hi : oldIdx ≥ i <;>
        simp [mapCharIdxSpecStep, hd, hi]
    | delRange a b =>
      by_cases hd : d = bufId <;> by_cases hi : oldIdx > b <;>
        simp [mapCharIdxSpecStep, hd, hi]

/-! ### Editor history (editor_history.rs) -/

/-- `EditorHistory`: two stacks of transactions; the deque front is the list
head. -/
structure EditorHistory where
  prev : List Transaction
  next : List Transaction
deriving DecidableEq

/-- `EditorHistory::undo`: pop `prev`, apply it, push the returned inverse
onto `next`; the popped transaction is returned whether or not it applied. -/
def EditorHistory.undo (h : EditorHistory) (dm : DocumentMap) :
    Option Transaction × EditorHistory × DocumentMap :=
  match h.prev with
  | [] => (none, h, dm)
  | tx :: rest =>
    match tx.applyTx dm with
    | (some inv, dm1) => (some tx, ⟨rest, inv :: h.next⟩, dm1)
    | (none, dm1) => (some tx, ⟨rest, h.next⟩, dm1)

/-- `EditorHistory::redo`: symmetric to `undo`. -/
def EditorHistory.redo (h : EditorHistory) (dm : DocumentMap) :
    Option Transaction × EditorHistory × DocumentMap :=
  match h.next with
  | [] => (none, h, dm)
  | tx :: rest =>
    match tx.applyTx dm with
    | (some inv, dm1) => (some tx, ⟨inv :: h.prev, rest⟩, dm1)
    | (none, dm1) => (some tx, ⟨h.prev, rest⟩, dm1)

/-- `EditorHistory::next`: clear the `next` stack, apply the transaction, and
push the returned inverse onto `prev`; reports success. (Named `nextTx` here
because `next` is the field name.) -/
def EditorHistory.nextTx (h : EditorHistory) (tx : Transaction) (dm : DocumentMap) :
    Bool × EditorHistory × DocumentMap :=
  match tx.applyTx dm with
  | (some inv, dm1) => (true, ⟨inv :: h.prev, []⟩, dm1)
  | (none, dm1) => (false, ⟨h.prev, []⟩, dm1)

/-- `HistoricalEditorState`: a document map together with its history. -/
structure HistoricalEditorState where
  docMap : DocumentMap
  history : EditorHistory

/-- `HistoricalEditorState::undo`. -/
def HistoricalEditorState.undo (st : HistoricalEditorState) :
    Option Transaction × HistoricalEditorState :=
  let r := st.history.undo st.docMap
  (r.1, ⟨r.2.2, r.2.1⟩)

/-- `HistoricalEditorState::redo`. -/
def HistoricalEditorState.redo (st : HistoricalEditorState) :
    Option Transaction × HistoricalEditorState :=
  let r := st.history.redo st.docMap
  (r.1, ⟨r.2.2, r.2.1⟩)

/-- `HistoricalEditorState::modify_with_tx`: empty transactions succeed
without being recorded; otherwise move the history forward. -/
def HistoricalEditorState.modifyWithTx (st : HistoricalEditorState) (tx : Transaction) :
    Bool × HistoricalEditorState :=
  if tx.primitiveMods.isEmpty then (true, st)
  else
    let r := st.history.nextTx tx st.docMap
    (r.1, ⟨r.2.2, r.2.1⟩)

/-! ## C6: undo then redo restores the pre-undo state — refuted

`undo` pushes onto `next` the inverse returned by `apply_tx`; because that
inverse is wrong for a multi-byte `InsText` (byte-length `DelRange`), the
subsequent `redo` does not reproduce the pre-undo state. -/

/-- The history whose past holds the multi-byte insertion transaction. -/
def histAccent : EditorHistory := ⟨[txInsAccent], []⟩

/-- State reached by performing `undo` from `histAccent` on `dmAB`. -/
def afterUndoAccent : Option Transaction × EditorHistory × DocumentMap :=
  histAccent.undo dmAB

/-- C6: from `dmAB` with `prev = [txInsAccent]`, `undo` succeeds (it applies
the insertion and pushes an inverse onto `next`, so `redo` is available),
but `redo` then yields a document map with buffer `b` — not the pre-undo
state `dmAB` (buffer `ab`). -/
theorem undo_then_redo_fails_on_multibyte :
    afterUndoAccent.1 = some txInsAccent ∧
    afterUndoAccent.2.1.next.length = 1 ∧
    (afterUndoAccent.2.1.redo afterUndoAccent.2.2).1.isSome ∧
    ((alookup 0 (afterUndoAccent.2.1.redo afterUndoAccent.2.2).2.2.docs).map Document.buf)
      = some ['b'] ∧
    (afterUndoAccent.2.1.redo afterUndoAccent.2.2).2.2 ≠ dmAB := by
  refine ⟨rfl, rfl, rfl, rfl, ?_⟩
  decide

/-! ### Key events and the insert-mode generator (events.rs, insert_mode.rs) -/

/-- The non-character keys of events.rs (`End` is rendered `endKey`). -/
inductive Key where
  | enter | tab | backspace | esc | left | right | up | down | ins | del
  | home | endKey | pageUp | pageDown | pauseBreak | numpadCenter
  | f0 | f1 | f2 | f3 | f4 | f5 | f6 | f7 | f8 | f9 | f10 | f11 | f12
deriving DecidableEq

/-- `KeyEvt`: a character or a named key, with a modifier bitset
(`NONE = 0`, `CTRL = 1`, `ALT = 2`, `SHIFT = 4`). -/
inductive KeyEvt where
  | char (c : Char) (mods : Nat)
  | key (k : Key) (mods : Nat)
deriving DecidableEq

/-- `KeyCombo`: an ordered buffer of key events. -/
abbrev KeyCombo := List KeyEvt

/-- `KeyCombo::extract_text`: characters map to themselves, `Enter` to a
newline, `Tab` to a tab; other keys are dropped. -/
def extractText (combo : KeyCombo) : List Char :=
  combo.filterMap fun evt =>
    match evt with
    | .char c _ => some c
    | .key .enter _ => some '\n'
    | .key .tab _ => some '\t'
    | _ => none

/-- Stable insertion into a list sorted by a numeric key (placed after equal
keys, matching the stability of itertools `sorted_by_key`). -/
def insertSortedBy (key : α → Nat) (x : α) : List α → List α
  | [] => [x]
  | y :: ys => if key x < key y then x :: y :: ys else y :: insertSortedBy key x ys

/-- itertools `sorted_by_key`: stable sort by a numeric key. -/
def sortedByKey (key : α → Nat) (l : List α) : List α :=
  l.foldl (fun acc x => insertSortedBy key x acc) []

/-- `insert_key` from insert_mode.rs: for each selection in head order,
insert the trigger text at the head index remapped through the transaction
built so far, and move the head to the right of the inserted text. -/
def insertKey (trigger : KeyCombo) (dm : DocumentMap) : Option Transaction :=
  let textToInsert := extractText trigger
  if textToInsert.isEmpty then none
  else
    match alookup dm.curr dm.docs with
    | none => none
    | some doc =>
      let textNumChars := charCount textToInsert
      let sorted := sortedByKey (fun kv => kv.2.head) doc.selections
      some (sorted.foldl
        (fun tx kv =>
          let insertIndex := (tx.mapCharIdx dm.curr kv.2.head).getD 0
          let newHead := insertIndex + textNumChars
          ⟨tx.primitiveMods ++
            [.text dm.curr (.insText insertIndex textToInsert),
             .sel dm.curr kv.1 (.setHead newHead)]⟩)
        ⟨[]⟩)

/-! ## C5: the multi-cursor insert scenario — confirmed -/

/-- The scenario state: rope `abc` with selections `0 → (1, None)` and
`1 → (2, None)`. -/
def dmABC : DocumentMap :=
  { curr := 0,
    docs := [(0, { source := none,
                   selections := [(0, ⟨1, none⟩), (1, ⟨2, none⟩)],
                   dirty := false,
                   buf := ['a', 'b', 'c'] })] }

/-- The transaction generated by `insert_key` for trigger `Char('X')`. -/
def txInsertX : Option Transaction := insertKey [.char 'X' 0] dmABC

/-- Result of applying the generated transaction to the scenario state. -/
def appliedX : Option Transaction × DocumentMap :=
  (txInsertX.getD ⟨[]⟩).applyTx dmABC

/-- C5: `insert_key` triggered by `Char('X')` on `dmABC` produces a
transaction; applying it succeeds and yields rope `aXbXc` with selections
`0 → (2, None)` and `1 → (4, None)`; applying the returned inverse restores
the original state exactly. -/
theorem multi_cursor_insert_scenario :
    txInsertX.isSome ∧
    appliedX.1.isSome ∧
    (alookup 0 appliedX.2.docs).map Document.buf = some ['a', 'X', 'b', 'X', 'c'] ∧
    (alookup 0 appliedX.2.docs).map (fun d => alookup 0 d.selections)
      = some (some ⟨2, none⟩) ∧
    (alookup 0 appliedX.2.docs).map (fun d => alookup 1 d.selections)
      = some (some ⟨4, none⟩) ∧
    ((appliedX.1.getD ⟨[]⟩).applyTx appliedX.2).1.isSome ∧
    ((appliedX.1.getD ⟨[]⟩).applyTx appliedX.2).2 = dmABC := by
  refine ⟨rfl, rfl, rfl, rfl, rfl, rfl, rfl⟩

/-! ### The document-level invariants of the data model (for C7) -/

/-- Both ends of a selection lie in `0 ..= n`. -/
def selInRange (n : Nat) (sel : TextSelection) : Bool :=
  decide (sel.head ≤ n) &&
    (match sel.tail with
     | none => true
     | some t => decide (t ≤ n))

/-- The data-model invariant of one document: the selection map is non-empty,
contains the primary selection id 0, and every selection index lies in
`0 ..= buffer.char_count`. -/
def docInvariant (d : Document) : Bool :=
  !d.selections.isEmpty && (alookup 0 d.selections).isSome &&
    d.selections.all fun kv => selInRange d.buf.length kv.2

/-- The invariant holds for every document of the map. -/
def docMapInvariant (dm : DocumentMap) : Bool :=
  dm.docs.all fun kv => docInvariant kv.2

/-- The primitive shapes that cannot disturb the document invariants: text
insertion (selections untouched, buffer grows), switching the current
document (documents untouched), and removing a document (the remaining
documents are untouched). -/
def invariantSafePrim : PrimitiveMod → Bool
  | .text _ (.insText _ _) => true
  | .docMap (.switchDoc _) => true
  | .docMap (.popDoc _) => true
  | _ => false

/-! Association-list helper lemmas. -/

theorem alookup_mem {k : Nat} {v : α} : ∀ {l : List (Nat × α)},
    alookup k l = some v → (k, v) ∈ l := by
  intro l
  induction l with
  | nil => intro h; simp [alookup] at h
  | cons kv rest ih =>
    obtain ⟨k1, v1⟩ := kv
    intro h
    simp only [alookup] at h
    by_cases hk : k1 = k
    · rw [if_pos hk] at h
      injection h with hv
      subst hv hk
      exact List.mem_cons_self _ _
    · rw [if_neg hk] at h
      exact List.mem_cons_of_mem _ (ih h)

theorem mem_aupdate {k : Nat} {v : α} {l : List (Nat × α)} {x : Nat × α}
    (h : x ∈ aupdate k v l) : x = (k, v) ∨ x ∈ l := by
  unfold aupdate at h
  obtain ⟨kv, hmem, heq⟩ := List.mem_map.mp h
  by_cases hk : kv.1 = k
  · rw [if_pos hk] at heq; exact Or.inl heq.symm
  · rw [if_neg hk] at heq; exact Or.inr (heq ▸ hmem)

theorem mem_aremove {k : Nat} {x : Nat × α} : ∀ {l : List (Nat × α)},
    x ∈ aremove k l → x ∈ l := by
  intro l
  induction l with
  | nil => intro h; simp [aremove] at h
  | cons kv rest ih =>
    obtain ⟨k1, v1⟩ := kv
    intro h
    simp only [aremove] at h
    by_cases hk : k1 = k
    · rw [if_pos hk] at h; exact List.mem_cons_of_mem _ h
    · rw [if_neg hk] at h
      rcases List.mem_cons.mp h with h1 | h1
      · exact h1 ▸ List.mem_cons_self _ _
      · exact List.mem_cons_of_mem _ (ih h1)

theorem selInRange_mono {n m : Nat} {sel : TextSelection} (hnm : n ≤ m)
    (h : selInRange n sel = true) : selInRange m sel = true := by
  unfold selInRange at h ⊢
  cases ht : sel.tail with
  | none => simp only [ht] at h ⊢; simp at h ⊢; omega
  | some t => simp only [ht] at h ⊢; simp at h ⊢; omega

/-! ## C7: every primitive application preserves the document invariants — refuted

`SelectionMod::apply` performs no bounds check: `SetHead(10)` succeeds on a
three-character buffer and leaves an out-of-range selection. (`DeleteSel`
can likewise remove the primary or last selection, and `DelRange` can shrink
the buffer below existing selection indices.) -/

/-- C7 counterexample: `dmAB` satisfies the invariants, the primitive
`Sel(0, 0, SetHead(10))` applies successfully, and the resulting state
violates them (head 10 exceeds the 2-character buffer). -/
theorem setHead_breaks_selection_invariant :
    docMapInvariant dmAB = true ∧
    ((PrimitiveMod.sel 0 0 (.setHead 10)).apply dmAB).isSome = true ∧
    ((PrimitiveMod.sel 0 0 (.setHead 10)).apply dmAB).map (fun r => docMapInvariant r.2)
      = some false := by
  refine ⟨rfl, rfl, rfl⟩

/-- C7 amended: the invariants are not checked by primitive application and a
successful `SetHead` (or `DeleteSel`, or a buffer-shrinking `DelRange`) can
break them; they are preserved by the primitives that neither modify
selection maps nor shrink a buffer — `InsText`, `SwitchDoc` and `PopDoc`. -/
theorem invariant_safe_primitives_preserve_invariant
    (dm : DocumentMap) (p pinv : PrimitiveMod) (dm1 : DocumentMap)
    (hinv : docMapInvariant dm = true) (hsafe : invariantSafePrim p = true)
    (happ : p.apply dm = some (pinv, dm1)) : docMapInvariant dm1 = true := by
  have hall := List.all_eq_true.mp hinv
  cases p with
  | sel docId selId m => simp [invariantSafePrim] at hsafe
  | text docId bm =>
    cases bm with
    | delRange a b => simp [invariantSafePrim] at hsafe
    | insText i s =>
      cases halk : alookup docId dm.docs with
      | none => simp [PrimitiveMod.apply, halk] at happ
      | some doc =>
        simp only [PrimitiveMod.apply, halk] at happ
        by_cases hle : i ≤ doc.buf.length
        · simp only [BufMod.apply, ropeInsert, if_pos hle, Option.map] at happ
          simp only [Option.some.injEq, Prod.mk.injEq] at happ
          obtain ⟨-, hdm1⟩ := happ
          subst hdm1
          refine List.all_eq_true.mpr ?_
          intro x hx
          rcases mem_aupdate hx with hx1 | hx1
          · subst hx1
            have hd := hall _ (alookup_mem halk)
            simp only [docInvariant] at hd ⊢
            simp only [Bool.and_eq_true] at hd ⊢
            refine ⟨hd.1, ?_⟩
            have hlen : doc.buf.length ≤ (doc.buf.take i ++ s ++ doc.buf.drop i).length := by
              simp [List.length_append, List.length_take, List.length_drop]
              omega
            refine List.all_eq_true.mpr ?_
            intro kv hkv
            exact selInRange_mono hlen (List.all_eq_true.mp hd.2 kv hkv)
          · exact hall x hx1
        · simp [BufMod.apply, ropeInsert, if_neg hle] at happ
  | docMap dmm =>
    cases dmm with
    | createDoc d => simp [invariantSafePrim] at hsafe
    | deleteSel a b => simp [invariantSafePrim] at hsafe
    | createSel a b c => simp [invariantSafePrim] at hsafe
    | switchDoc id =>
      by_cases hc : acontains id dm.docs
      · simp only [PrimitiveMod.apply, DocMapMod.apply, hc, if_true] at happ
        simp only [Option.some.injEq, Prod.mk.injEq] at happ
        obtain ⟨-, hdm1⟩ := happ
        subst hdm1
        exact hinv
      · simp [PrimitiveMod.apply, DocMapMod.apply, hc] at happ
    | popDoc id =>
      cases halk : alookup id dm.docs with
      | none => simp [PrimitiveMod.apply, DocMapMod.apply, halk] at happ
      | some d =>
        simp only [PrimitiveMod.apply, DocMapMod.apply, halk] at happ
        simp only [Option.some.injEq, Prod.mk.injEq] at happ
        obtain ⟨-, hdm1⟩ := happ
        subst hdm1
        exact List.all_eq_true.mpr fun x hx => hall x (mem_aremove hx)

/-- Witness for the amended C7 theorem at a concrete state and primitive. -/
theorem invariant_safe_primitives_witness : docMapInvariant dmAB = true :=
  invariant_safe_primitives_preserve_invariant dmAB (.docMap (.switchDoc 0))
    (.docMap (.switchDoc 0)) dmAB (by decide) (by decide) (by decide)

/-! ### The modal editor driver (editor.rs) -/

/-- `ModalEditorError` from editor.rs. -/
inductive ModalEditorError where
  | saveError (msg : String)
  | noMode
  | undoError
  | redoError
  | txError
  | modeError (msg : String)
  | invalidMode (name : String)
  | cannotPopMode
deriving DecidableEq

/-- `ModalEditorResult` from editor.rs. -/
inductive ModalEditorResult where
  | quitRequested
  | errorThrown (e : String)
  | txApplied (tx : Transaction)
  | comboResetted
  | modeUpdated (name : String)
  | documentSaved (id : Nat)
deriving DecidableEq

/-- `EditorCmd` from editor.rs; a `Transaction` command carries its named
generator function. -/
inductive EditorCmd where
  | undoCurrDocument
  | redoCurrDocument
  | saveCurrDocument (path : Option String)
  | transaction (name : String) (gen : KeyCombo → DocumentMap → Option Transaction)
  | pushMode (name : String)
  | popMode
  | resetCombo
  | quit
  | throwErr (msg : String)

/-- `HistoricalEditorState::modify_with_tx_gen`: run the generator on the
trigger combo and current document map; on `Some(tx)` apply it through the
history (whose mutations persist even when the application fails) and keep
the transaction only if the application succeeded. -/
def HistoricalEditorState.modifyWithTxGen (st : HistoricalEditorState)
    (trigger : KeyCombo) (gen : KeyCombo → DocumentMap → Option Transaction) :
    Option Transaction × HistoricalEditorState :=
  match gen trigger st.docMap with
  | none => (none, st)
  | some tx =>
    let r := st.modifyWithTx tx
    (if r.1 then some tx else none, r.2)

/-- `Document::save_as`: writes the buffer (success given by the external
file-system oracle `writeOk`), then records the new source and clears
`dirty`. -/
def Document.saveAs (writeOk : String → Bool) (d : Document) (path : String) : Option Document :=
  if writeOk path then some { d with source := some path, dirty := false } else none

/-- `Document::save`: fails when the document has no source; otherwise writes
to the recorded source. -/
def Document.save (writeOk : String → Bool) (d : Document) : Option Document :=
  match d.source with
  | some path => if writeOk path then some { d with dirty := false } else none
  | none => none

/-- The environment of the modal editor: the `handle_combo` functions of the
registered mode objects (keyed by mode id — they are trait objects in the
source, so they are modelled as arbitrary functions; the handler here
receives the full historical state, a superset of the summary the source
passes), and the success oracle for `std::fs::write`. -/
structure EditorEnv where
  handle : String → KeyCombo → HistoricalEditorState → List EditorCmd
  writeOk : String → Bool

/-- `ModalEditor` from editor.rs: registered mode ids, the active-mode stack
(front is the list head) and the pending key combo. -/
structure ModalEditor where
  historicalState : HistoricalEditorState
  registeredModes : List String
  activeModes : List String
  currCombo : KeyCombo

/-- One command of `ModalEditor::update_with_action`. -/
def execCmd (env : EditorEnv) (ed : ModalEditor) :
    EditorCmd → Except ModalEditorError ModalEditorResult × ModalEditor
  | .undoCurrDocument =>
    let r := ed.historicalState.undo
    match r.1 with
    | some tx => (.ok (.txApplied tx), { ed with historicalState := r.2 })
    | none => (.error .undoError, { ed with historicalState := r.2 })
  | .redoCurrDocument =>
    let r := ed.historicalState.redo
    match r.1 with
    | some tx => (.ok (.txApplied tx), { ed with historicalState := r.2 })
    | none => (.error .redoError, { ed with historicalState := r.2 })
  | .transaction _ gen =>
    let r := ed.historicalState.modifyWithTxGen ed.currCombo gen
    match r.1 with
    | some tx => (.ok (.txApplied tx), { ed with historicalState := r.2 })
    | none => (.error .txError, { ed with historicalState := r.2 })
  | .pushMode m =>
    if ed.registeredModes.contains m then
      (.ok (.modeUpdated m), { ed with activeModes := m :: ed.activeModes })
    else (.error (.invalidMode m), ed)
  | .popMode =>
    if ed.activeModes.length > 1 then
      (.ok (.modeUpdated (ed.activeModes.tail.headD "")), { ed with activeModes := ed.activeModes.tail })
    else (.error .cannotPopMode, ed)
  | .resetCombo => (.ok .comboResetted, { ed with currCombo := [] })
  | .saveCurrDocument pathOpt =>
    match alookup ed.historicalState.docMap.curr ed.historicalState.docMap.docs with
    | none => (.error (.saveError "could not save"), ed)
    | some doc =>
      match (match pathOpt with
             | some p => doc.saveAs env.writeOk p
             | none => doc.save env.writeOk) with
      | none => (.error (.saveError "could not save"), ed)
      | some doc1 =>
        let hs := ed.historicalState
        let dm1 := { hs.docMap with docs := aupdate hs.docMap.curr doc1 hs.docMap.docs }
        (.ok (.documentSaved hs.docMap.curr),
         { ed with historicalState := { hs with docMap := dm1 } })
  | .quit => (.ok .quitRequested, ed)
  | .throwErr msg => (.error (.modeError msg), ed)

/-- `ModalEditor::update_with_action`: execute the commands in order; the
`?` operator propagates the first error immediately, keeping the mutations
performed so far and discarding the remaining commands. -/
def updateWithAction (env : EditorEnv) :
    ModalEditor → List EditorCmd →
    Except ModalEditorError (List ModalEditorResult) × ModalEditor
  | ed, [] => (.ok [], ed)
  | ed, c :: rest =>
    match execCmd env ed c with
    | (.error e, ed1) => (.error e, ed1)
    | (.ok r, ed1) =>
      match updateWithAction env ed1 rest with
      | (.ok rs, ed2) => (.ok (r :: rs), ed2)
      | (.error e, ed2) => (.error e, ed2)

/-- The reset-key test of `ModalEditor::update`: combo longer than one event
ending with an unmodified `Esc`. -/
def isLoneEscEnd (combo : KeyCombo) : Bool :=
  decide (combo.length > 1) && decide (combo.getLast? = some (.key .esc 0))

/-- `ModalEditor::update`: handle the lone-Esc reset, otherwise ask the
current mode for an action and execute it. The `?` on `update_with_action`
returns an error immediately, bypassing the final length check that resets
the combo on a visible effect. -/
def ModalEditor.update (env : EditorEnv) (ed : ModalEditor) :
    Except ModalEditorError (List ModalEditorResult) × ModalEditor :=
  if isLoneEscEnd ed.currCombo then
    (.ok [.comboResetted], { ed with currCombo := [] })
  else
    match ed.activeModes.head? with
    | none => (.error .noMode, ed)
    | some m =>
      if ed.registeredModes.contains m then
        match updateWithAction env ed (env.handle m ed.currCombo ed.historicalState) with
        | (.error e, ed1) => (.error e, ed1)
        | (.ok rs, ed1) =>
          if rs.length > 0 then (.ok rs, { ed1 with currCombo := [] }) else (.ok rs, ed1)
      else (.error .noMode, ed)

/-! ## C10: first error aborts the action, and errors always reset the combo
— first half confirmed, second half refuted

In `update`, `self.update_with_action(action)?` returns the error to the
caller before the reset-on-visible-effect check runs, so a failing action
leaves the combo untouched. -/

/-- A historical state over `dmAB` with empty history. -/
def histAB : HistoricalEditorState := ⟨dmAB, ⟨[], []⟩⟩

/-- An environment whose single mode always answers with `ThrowErr`. -/
def envBoom : EditorEnv := ⟨fun _ _ _ => [.throwErr "boom"], fun _ => true⟩

/-- An editor in that mode with a pending one-key combo. -/
def edXCombo : ModalEditor := ⟨histAB, ["normal"], ["normal"], [.char 'x' 0]⟩

/-- C10 counterexample: executing an action whose first command throws an
error makes `update` return that error while the current key combo is left
as it was — it is not reset (emptied) before `update` returns. -/
theorem update_error_leaves_combo_unreset :
    (ModalEditor.update envBoom edXCombo).1 = .error (.modeError "boom") ∧
    (ModalEditor.update envBoom edXCombo).2.currCombo = [.char 'x' 0] ∧
    ([KeyEvt.char 'x' 0] : KeyCombo) ≠ [] := by
  refine ⟨rfl, rfl, by decide⟩

/-- C10 amended: (1) within an action, the first command that produces an
error aborts execution of all remaining commands — the result and state are
those reached at the failing command, independent of the rest; (2) when the
action's execution produces an error, `update` returns that error and the
state reached at the failing command unchanged: in particular it does not
reset the key combo (the reset happens only on a successful action with a
non-empty result list, or on the lone-Esc path). -/
theorem update_error_propagation :
    (∀ (env : EditorEnv) (ed : ModalEditor) (pfx : List EditorCmd) (c : EditorCmd)
        (rest : List EditorCmd) (rs : List ModalEditorResult) (e : ModalEditorError)
        (ed1 ed2 : ModalEditor),
      updateWithAction env ed pfx = (.ok rs, ed1) →
      execCmd env ed1 c = (.error e, ed2) →
      updateWithAction env ed (pfx ++ c :: rest) = (.error e, ed2)) ∧
    (∀ (env : EditorEnv) (ed : ModalEditor) (m : String) (e : ModalEditorError)
        (ed1 : ModalEditor),
      isLoneEscEnd ed.currCombo = false →
      ed.activeModes.head? = some m →
      ed.registeredModes.contains m = true →
      updateWithAction env ed (env.handle m ed.currCombo ed.historicalState) = (.error e, ed1) →
      ModalEditor.update env ed = (.error e, ed1)) := by
  constructor
  · intro env ed pfx c rest rs e ed1 ed2 h1 h2
    induction pfx generalizing ed rs with
    | nil =>
      simp only [updateWithAction] at h1
      injection h1 with h1a h1b
      injection h1a with h1a
      subst h1a h1b
      simp only [List.nil_append, updateWithAction, h2]
    | cons c0 pfx ih =>
      rcases hc0 : execCmd env ed c0 with ⟨res0, edA⟩
      cases res0 with
      | error e0 =>
        simp only [updateWithAction, hc0] at h1
        exact absurd (congrArg Prod.fst h1) (by simp)
      | ok r0 =>
        rcases hup : updateWithAction env edA pfx with ⟨resU, edB⟩
        cases resU with
        | error e0 =>
          simp only [updateWithAction, hc0, hup] at h1
          exact absurd (congrArg Prod.fst h1) (by simp)
        | ok rs0 =>
          simp only [updateWithAction, hc0, hup] at h1
          injection h1 with h1a h1b
          subst h1b
          simp only [List.cons_append, updateWithAction, hc0, List.append_eq, ih edA rs0 hup]
  · intro env ed m e ed1 hesc hm hreg hact
    unfold ModalEditor.update
    rw [hesc]
    simp only [Bool.false_eq_true, if_false, hm, hreg, if_true, hact]

/-- Witness for the amended C10 theorem: a concrete action whose second
command is never reached, and a concrete `update` returning the mode's
error with the editor unchanged. -/
theorem update_error_propagation_witness :
    updateWithAction envBoom edXCombo
        ([] ++ EditorCmd.throwErr "boom" :: [EditorCmd.quit])
      = (.error (.modeError "boom"), edXCombo) ∧
    ModalEditor.update envBoom edXCombo = (.error (.modeError "boom"), edXCombo) :=
  ⟨update_error_propagation.1 envBoom edXCombo [] (.throwErr "boom") [.quit] []
      (.modeError "boom") edXCombo edXCombo rfl rfl,
   update_error_propagation.2 envBoom edXCombo "normal" (.modeError "boom") edXCombo
      rfl rfl rfl rfl⟩

/-! ### Selection merging (cursor.rs, for C8) -/

/-- `min(sel.0, sel.1.unwrap_or(sel.0))`. -/
def selMin (s : TextSelection) : Nat := min s.head (s.tail.getD s.head)

/-- `max(sel.0, sel.1.unwrap_or(sel.0))`. -/
def selMax (s : TextSelection) : Nat := max s.head (s.tail.getD s.head)

/-- One step of the merging fold of `collect_merged`, with the exact branch
structure of the source. The deque of merged intervals is kept in reverse:
the list head is the deque back (most recently added interval); the
assembled result is reversed at the end. -/
def mergeStep (acc : List (Nat × Nat)) (iv : Nat × Nat) : List (Nat × Nat) :=
  match acc with
  | [] => [iv]
  | last :: rest =>
    if iv.1 ≥ last.1 ∧ iv.2 ≤ last.2 then last :: rest
    else if iv.1 < last.1 ∧ iv.2 ≥ last.1 ∧ iv.2 ≤ last.2 then (iv.1, last.2) :: rest
    else if iv.1 ≥ last.1 ∧ iv.1 ≤ last.2 ∧ iv.2 > last.2 then (last.1, iv.2) :: rest
    else if iv.1 < last.1 ∧ iv.2 ≥ last.2 then iv :: rest
    else iv :: last :: rest

/-- `collect_merged` (cursor.rs), parameterised by the grapheme extension
`ext`, which models `|i| right_grapheme(i, buf).unwrap_or(i)` for the rope
at hand (the external Unicode segmentation enters only through this
function, so the theorems quantify over every such `ext` and hence every
rope): sort the selections by their minimum, map each to the interval from
its minimum to the extension of its maximum, and fold the merge step. -/
def collectMerged (ext : Nat → Nat) (sels : List TextSelection) : List (Nat × Nat) :=
  (((sortedByKey selMin sels).map fun s => (selMin s, ext (selMax s))).foldl mergeStep []).reverse

/-- Position `p` lies in one of the half-open intervals of the list. -/
def covered (p : Nat) (l : List (Nat × Nat)) : Prop :=
  ∃ ab ∈ l, ab.1 ≤ p ∧ p < ab.2

/-- The start of the most recently added interval is at most `n`. -/
def headStartLe (acc : List (Nat × Nat)) (n : Nat) : Prop :=
  match acc with
  | [] => True
  | last :: _ => last.1 ≤ n

/-! Sorting lemmas for the stable insertion sort modelling `sorted_by_key`. -/

theorem mem_insertSortedBy {key : α → Nat} {x y : α} : ∀ {l : List α},
    y ∈ insertSortedBy key x l ↔ y = x ∨ y ∈ l := by
  intro l
  induction l with
  | nil => simp [insertSortedBy]
  | cons z zs ih =>
    simp only [insertSortedBy]
    by_cases h : key x < key z
    · rw [if_pos h]
      simp [List.mem_cons]
    · rw [if_neg h]
      simp only [List.mem_cons, ih]
      tauto

theorem pairwise_insertSortedBy {key : α → Nat} {x : α} : ∀ {l : List α},
    l.Pairwise (fun a b => key a ≤ key b) →
    (insertSortedBy key x l).Pairwise (fun a b => key a ≤ key b) := by
  intro l
  induction l with
  | nil => intro _; simp [insertSortedBy]
  | cons z zs ih =>
    intro h
    rw [List.pairwise_cons] at h
    obtain ⟨hz, hzs⟩ := h
    simp only [insertSortedBy]
    by_cases hlt : key x < key z
    · rw [if_pos hlt]
      refine List.pairwise_cons.mpr ⟨?_, List.pairwise_cons.mpr ⟨hz, hzs⟩⟩
      intro b hb
      rcases List.mem_cons.mp hb with rfl | hb
      · omega
      · exact le_trans (le_of_lt hlt) (hz b hb)
    · rw [if_neg hlt]
      refine List.pairwise_cons.mpr ⟨?_, ih hzs⟩
      intro b hb
      rcases mem_insertSortedBy.mp hb with rfl | hb
      · omega
      · exact hz b hb

theorem sortedByKey_mem {key : α → Nat} {l : List α} {y : α} :
    y ∈ sortedByKey key l ↔ y ∈ l := by
  suffices h : ∀ (l acc : List α),
      (y ∈ l.foldl (fun acc x => insertSortedBy key x acc) acc ↔ y ∈ acc ∨ y ∈ l) by
    have h2 := h l []
    simpa [sortedByKey] using h2
  intro l
  induction l with
  | nil => intro acc; simp
  | cons z zs ih =>
    intro acc
    simp only [List.foldl_cons]
    rw [ih, mem_insertSortedBy]
    simp only [List.mem_cons]
    tauto

theorem sortedByKey_pairwise {key : α → Nat} (l : List α) :
    (sortedByKey key l).Pairwise (fun a b => key a ≤ key b) := by
  suffices h : ∀ (l acc : List α),
      acc.Pairwise (fun a b => key a ≤ key b) →
      (l.foldl (fun acc x => insertSortedBy key x acc) acc).Pairwise
        (fun a b => key a ≤ key b) from h l [] List.Pairwise.nil
  intro l
  induction l with
  | nil => intro acc hacc; simpa using hacc
  | cons z zs ih =>
    intro acc hacc
    simp only [List.foldl_cons]
    exact ih _ (pairwise_insertSortedBy hacc)

/-! Lemmas about one merge step. -/

theorem mergeStep_pairwise {acc : List (Nat × Nat)} {v : Nat × Nat}
    (hacc : acc.Pairwise (fun a b => b.2 < a.1 ∧ b.1 ≤ a.1))
    (hhd : headStartLe acc v.1) :
    (mergeStep acc v).Pairwise (fun a b => b.2 < a.1 ∧ b.1 ≤ a.1) := by
  cases acc with
  | nil => simp [mergeStep]
  | cons last rest =>
    have hhd1 : last.1 ≤ v.1 := hhd
    rw [List.pairwise_cons] at hacc
    obtain ⟨hlast, hrest⟩ := hacc
    simp only [mergeStep]
    split_ifs with h1 h2 h3 h4
    · exact List.pairwise_cons.mpr ⟨hlast, hrest⟩
    · exfalso; omega
    · refine List.pairwise_cons.mpr ⟨?_, hrest⟩
      intro b hb
      exact hlast b hb
    · exfalso; omega
    · have hgt : v.2 > last.2 := by
        by_contra hc
        exact h1 ⟨by omega, by omega⟩
      have hgt1 : v.1 > last.2 := by
        by_contra hc
        exact h3 ⟨by omega, by omega, by omega⟩
      refine List.pairwise_cons.mpr ⟨?_, List.pairwise_cons.mpr ⟨hlast, hrest⟩⟩
      intro b hb
      rcases List.mem_cons.mp hb with rfl | hb
      · exact ⟨hgt1, hhd1⟩
      · have hr := hlast b hb
        exact ⟨by omega, by omega⟩

theorem mergeStep_headStartLe {acc : List (Nat × Nat)} {v : Nat × Nat} {n : Nat}
    (hhd : headStartLe acc v.1) (hvn : v.1 ≤ n) :
    headStartLe (mergeStep acc v) n := by
  cases acc with
  | nil => exact hvn
  | cons last rest =>
    have hhd1 : last.1 ≤ v.1 := hhd
    simp only [mergeStep]
    split_ifs with h1 h2 h3 h4
    · exact le_trans hhd1 hvn
    · exact hvn
    · exact le_trans hhd1 hvn
    · exact hvn
    · exact hvn

theorem mergeStep_covers_old {acc : List (Nat × Nat)} {v : Nat × Nat} {p : Nat}
    (h : covered p acc) : covered p (mergeStep acc v) := by
  cases acc with
  | nil => simp [covered] at h
  | cons last rest =>
    obtain ⟨ab, hab, habp⟩ := h
    simp only [mergeStep]
    split_ifs with h1 h2 h3 h4
    · exact ⟨ab, hab, habp⟩
    · rcases List.mem_cons.mp hab with rfl | hab
      · exact ⟨(v.1, ab.2), List.mem_cons_self _ _, by omega, by omega⟩
      · exact ⟨ab, List.mem_cons_of_mem _ hab, habp⟩
    · rcases List.mem_cons.mp hab with rfl | hab
      · exact ⟨(ab.1, v.2), List.mem_cons_self _ _, by omega, by omega⟩
      · exact ⟨ab, List.mem_cons_of_mem _ hab, habp⟩
    · rcases List.mem_cons.mp hab with rfl | hab
      · exact ⟨v, List.mem_cons_self _ _, by omega, by omega⟩
      · exact ⟨ab, List.mem_cons_of_mem _ hab, habp⟩
    · exact ⟨ab, List.mem_cons_of_mem _ hab, habp⟩

theorem mergeStep_covers_new {acc : List (Nat × Nat)} {v : Nat × Nat} {p : Nat}
    (h1 : v.1 ≤ p) (h2 : p < v.2) : covered p (mergeStep acc v) := by
  cases acc with
  | nil => exact ⟨v, List.mem_cons_self _ _, h1, h2⟩
  | cons last rest =>
    simp only [mergeStep]
    split_ifs with hb1 hb2 hb3 hb4
    · exact ⟨last, List.mem_cons_self _ _, by omega, by omega⟩
    · exact ⟨(v.1, last.2), List.mem_cons_self _ _, by omega, by omega⟩
    · exact ⟨(last.1, v.2), List.mem_cons_self _ _, by omega, by omega⟩
    · exact ⟨v, List.mem_cons_self _ _, h1, h2⟩
    · exact ⟨v, List.mem_cons_self _ _, h1, h2⟩

/-- The invariant of the merging fold: starting from a reverse-ordered
accumulator whose head start precedes all remaining interval starts, the
fold keeps the accumulator reverse-ordered and covers both the old
accumulator and every processed interval. -/
theorem mergeFold_invariant :
    ∀ (ivs acc : List (Nat × Nat)),
      ivs.Pairwise (fun a b => a.1 ≤ b.1) →
      acc.Pairwise (fun a b => b.2 < a.1 ∧ b.1 ≤ a.1) →
      (∀ iv ∈ ivs, headStartLe acc iv.1) →
      (ivs.foldl mergeStep acc).Pairwise (fun a b => b.2 < a.1 ∧ b.1 ≤ a.1) ∧
      (∀ p, covered p acc → covered p (ivs.foldl mergeStep acc)) ∧
      (∀ iv ∈ ivs, ∀ p, iv.1 ≤ p → p < iv.2 → covered p (ivs.foldl mergeStep acc)) := by
  intro ivs
  induction ivs with
  | nil =>
    intro acc hsort hacc hhead
    exact ⟨hacc, fun p h => h, by simp⟩
  | cons v ivs ih =>
    intro acc hsort hacc hhead
    rw [List.pairwise_cons] at hsort
    obtain ⟨hv, hsort⟩ := hsort
    have hhdv : headStartLe acc v.1 := hhead v (List.mem_cons_self _ _)
    have hstep := mergeStep_pairwise hacc hhdv
    have hhead1 : ∀ iv ∈ ivs, headStartLe (mergeStep acc v) iv.1 := by
      intro iv hiv
      exact mergeStep_headStartLe hhdv (hv iv hiv)
    obtain ⟨g1, g2, g3⟩ := ih (mergeStep acc v) hsort hstep hhead1
    simp only [List.foldl_cons]
    refine ⟨g1, ?_, ?_⟩
    · intro p hcov
      exact g2 p (mergeStep_covers_old hcov)
    · intro iv hiv p hp1 hp2
      rcases List.mem_cons.mp hiv with rfl | hiv
      · exact g2 p (mergeStep_covers_new hp1 hp2)
      · exact g3 iv hiv p hp1 hp2

/-! ## C8: `collect_merged` yields sorted, disjoint, covering intervals — confirmed -/

/-- C8: for every grapheme-extension function and every list of selections,
the intervals of `collect_merged` are (a) sorted by start, (b) pairwise
disjoint as half-open intervals (each interval ends strictly before any later
one starts), and (c) cover every position of any input selection's range from
`min(head, tail)` up to (exclusively) the one-grapheme extension of
`max(head, tail)` — the extension makes the right end exclusive while
including the character under the caret. -/
theorem collectMerged_sorted_disjoint_covering (ext : Nat → Nat) (sels : List TextSelection) :
    (collectMerged ext sels).Pairwise (fun a b => a.1 ≤ b.1) ∧
    (collectMerged ext sels).Pairwise (fun a b => a.2 < b.1) ∧
    (∀ sel ∈ sels, ∀ p, selMin sel ≤ p → p < ext (selMax sel) →
      ∃ ab ∈ collectMerged ext sels, ab.1 ≤ p ∧ p < ab.2) := by
  have hsorted : ((sortedByKey selMin sels).map fun s => (selMin s, ext (selMax s))).Pairwise
      (fun a b => a.1 ≤ b.1) := by
    rw [List.pairwise_map]
    exact sortedByKey_pairwise sels
  obtain ⟨g1, -, g3⟩ := mergeFold_invariant
    ((sortedByKey selMin sels).map fun s => (selMin s, ext (selMax s))) []
    hsorted List.Pairwise.nil (fun iv _ => trivial)
  refine ⟨?_, ?_, ?_⟩
  · rw [collectMerged, List.pairwise_reverse]
    exact g1.imp fun h => h.2
  · rw [collectMerged, List.pairwise_reverse]
    exact g1.imp fun h => h.1
  · intro sel hsel p hp1 hp2
    have hmem : (selMin sel, ext (selMax sel)) ∈
        (sortedByKey selMin sels).map fun s => (selMin s, ext (selMax s)) :=
      List.mem_map.mpr ⟨sel, sortedByKey_mem.mpr hsel, rfl⟩
    obtain ⟨ab, hab, habp⟩ := g3 _ hmem p hp1 hp2
    exact ⟨ab, by simpa [collectMerged] using hab, habp⟩

/-- Witness for C8 at a concrete extension function and selection list. -/
theorem collectMerged_covering_witness :
    ∃ ab ∈ collectMerged (fun n => n + 1) [⟨0, none⟩], ab.1 ≤ 0 ∧ 0 < ab.2 :=
  (collectMerged_sorted_disjoint_covering (fun n => n + 1) [⟨0, none⟩]).2.2
    ⟨0, none⟩ (List.mem_singleton.mpr rfl) 0 (by decide) (by decide)

/-! ### The stylizer (render_server/stylizer.rs, for C9) -/

/-- `RGBAColor`. -/
structure RGBAColor where
  r : Nat
  g : Nat
  b : Nat
  a : Nat
deriving DecidableEq

/-- `StyleAttr`. -/
inductive StyleAttr where
  | fg (c : RGBAColor)
  | bg (c : RGBAColor)
  | highlight
deriving DecidableEq

/-- `StyleAttrMod`. -/
inductive StyleAttrMod where
  | addAttr (a : StyleAttr)
  | remAttr (a : StyleAttr)
deriving DecidableEq

/-- `ConcreteStyle`. -/
structure ConcreteStyle where
  fg : Option RGBAColor
  bg : Option RGBAColor
  highlight : Bool
deriving DecidableEq

/-- `ConcreteStyle::new`: fold the attribute list, the latest `Fg`/`Bg`
winning and `highlight` set by any occurrence. -/
def ConcreteStyle.new (attrs : List StyleAttr) : ConcreteStyle :=
  attrs.foldl
    (fun st a =>
      match a with
      | .fg c => { st with fg := some c }
      | .bg c => { st with bg := some c }
      | .highlight => { st with highlight := true })
    ⟨none, none, false⟩

/-- `Vec::swap_remove(i)`: replace the element at `i` with the last element
and drop the last slot. -/
def swapRemove (l : List StyleAttr) (i : Nat) : List StyleAttr :=
  match l.getLast? with
  | none => l
  | some lastA => (l.set i lastA).dropLast

/-- `extend_attrs`: apply each modification in order — `AddAttr` pushes,
`RemAttr` swap-removes the first matching occurrence. -/
def extendAttrs (attrs : List StyleAttr) (mods : List StyleAttrMod) : List StyleAttr :=
  mods.foldl
    (fun v m =>
      match m with
      | .addAttr a => v ++ [a]
      | .remAttr a =>
        match v.findIdx? (· == a) with
        | none => v
        | some i => swapRemove v i)
    attrs

/-- The `stylization_points` `BTreeMap<usize, Vec<StyleAttrMod>>` as a
key-sorted association list. -/
abbrev Stylizer := List (Nat × List StyleAttrMod)

/-- `entry(point).or_default().push(m)`: insert a modification at a point,
keeping the keys sorted and appending to an existing entry. -/
def pointsInsert (p : Nat) (m : StyleAttrMod) :
    List (Nat × List StyleAttrMod) → List (Nat × List StyleAttrMod)
  | [] => [(p, [m])]
  | (k, ms) :: rest =>
    if p < k then (p, [m]) :: (k, ms) :: rest
    else if p = k then (k, ms ++ [m]) :: rest
    else (k, ms) :: pointsInsert p m rest

/-- `Stylizer::layer_region_style`: for each attribute, one `AddAttr` at
`start` and one `RemAttr` at `end`. -/
def layerRegionStyle (st : Stylizer) (start stop : Nat) (attrs : List StyleAttr) : Stylizer :=
  attrs.foldl (fun s a => pointsInsert stop (.remAttr a) (pointsInsert start (.addAttr a) s)) st

/-- A stylizer built by a sequence of `layer_region_style` calls on the
default (empty) stylizer. -/
def mkStylizer (calls : List (Nat × Nat × List StyleAttr)) : Stylizer :=
  calls.foldl (fun s c => layerRegionStyle s c.1 c.2.1 c.2.2) []

/-- The walk of `Stylizer::compute_regions` over adjacent stylization
points, applying each boundary's modifications before emitting the
following region (the `max_chars` argument is unused in the source — its
`take` is commented out). -/
def regionsGo (attrs : List StyleAttr) : Stylizer → List (Nat × Nat × ConcreteStyle)
  | [] => []
  | [_] => []
  | (p, ms) :: (q, ms2) :: rest =>
    (p, q, ConcreteStyle.new (extendAttrs attrs ms)) ::
      regionsGo (extendAttrs attrs ms) ((q, ms2) :: rest)

/-- `Stylizer::compute_regions`. -/
def computeRegions (st : Stylizer) : List (Nat × Nat × ConcreteStyle) :=
  regionsGo [] st

/-- The style the specification ascribes to a region `(a, b)`: the fold, in
layering order, of the attributes of all layers active strictly within the
region (layer start ≤ `a` and `b` ≤ layer end); `ConcreteStyle::new` then
lets the latest `Fg`/`Bg` win and `highlight` be any layer's opinion. -/
def specRegionStyle (calls : List (Nat × Nat × List StyleAttr)) (a b : Nat) : ConcreteStyle :=
  ConcreteStyle.new
    (((calls.filter fun c => decide (c.1 ≤ a) && decide (b ≤ c.2.1)).map fun c => c.2.2).flatten)

/-! ## C9: `compute_regions` — union and disjointness confirmed, the
per-region style fold refuted

`extend_attrs` removes attributes with `swap_remove`, which moves the last
vector element into the removed slot. A removal therefore reorders the
running attribute vector, and `ConcreteStyle::new`'s "latest wins" then
picks a different `Fg` than the layering order dictates. -/

/-- Pure red. -/
def red : RGBAColor := ⟨255, 0, 0, 0⟩

/-- Pure blue. -/
def blue : RGBAColor := ⟨0, 0, 255, 0⟩

/-- Layer calls: a highlight on `(0, 10)`, then red fg on `(0, 30)`, then
blue fg on `(0, 30)`. -/
def calls0 : List (Nat × Nat × List StyleAttr) :=
  [(0, 10, [.highlight]), (0, 30, [.fg red]), (0, 30, [.fg blue])]

/-- C9 counterexample: after layering `calls0`, the region `(10, 30)` is
active for the red layer and then the blue layer, so the specified fold
gives blue; but removing the highlight at point 10 swap-removes it, moving
`Fg(blue)` to the front of the running vector, and the computed region style
has `fg = red`. -/
theorem computeRegions_latest_fg_fails :
    computeRegions (mkStylizer calls0) =
      [(0, 10, ⟨some blue, none, true⟩), (10, 30, ⟨some red, none, false⟩)] ∧
    specRegionStyle calls0 10 30 = ⟨some blue, none, false⟩ ∧
    (⟨some red, none, false⟩ : ConcreteStyle) ≠ ⟨some blue, none, false⟩ := by
  refine ⟨rfl, rfl, by decide⟩

/-! Sortedness of the stylization points. -/

theorem mem_pointsInsert_key {p : Nat} {m : StyleAttrMod} {x : Nat × List StyleAttrMod} :
    ∀ {l : List (Nat × List StyleAttrMod)},
    x ∈ pointsInsert p m l → x.1 = p ∨ x.1 ∈ l.map Prod.fst := by
  intro l
  induction l with
  | nil =>
    intro hx
    simp only [pointsInsert, List.mem_singleton] at hx
    exact Or.inl (by rw [hx])
  | cons kv rest ih =>
    obtain ⟨k, ms⟩ := kv
    intro hx
    simp only [pointsInsert] at hx
    split_ifs at hx with h1 h2
    · rcases List.mem_cons.mp hx with rfl | hx
      · exact Or.inl rfl
      · exact Or.inr (by simpa using List.mem_map_of_mem Prod.fst hx)
    · rcases List.mem_cons.mp hx with rfl | hx
      · exact Or.inr (by simp)
      · exact Or.inr (by simp [List.mem_map_of_mem Prod.fst hx])
    · rcases List.mem_cons.mp hx with rfl | hx
      · exact Or.inr (by simp)
      · rcases ih hx with h | h
        · exact Or.inl h
        · exact Or.inr (by simp [h])

theorem pointsInsert_pairwise {p : Nat} {m : StyleAttrMod} :
    ∀ {l : List (Nat × List StyleAttrMod)},
    l.Pairwise (fun a b => a.1 < b.1) →
    (pointsInsert p m l).Pairwise (fun a b => a.1 < b.1) := by
  intro l
  induction l with
  | nil => intro _; simp [pointsInsert]
  | cons kv rest ih =>
    obtain ⟨k, ms⟩ := kv
    intro h
    rw [List.pairwise_cons] at h
    obtain ⟨hk, hrest⟩ := h
    simp only [pointsInsert]
    split_ifs with h1 h2
    · refine List.pairwise_cons.mpr ⟨?_, List.pairwise_cons.mpr ⟨hk, hrest⟩⟩
      intro b hb
      rcases List.mem_cons.mp hb with rfl | hb
      · exact h1
      · exact lt_trans h1 (hk b hb)
    · exact List.pairwise_cons.mpr ⟨hk, hrest⟩
    · refine List.pairwise_cons.mpr ⟨?_, ih hrest⟩
      intro b hb
      rcases mem_pointsInsert_key hb with hb1 | hb1
      · omega
      · obtain ⟨c, hc, hc1⟩ := List.mem_map.mp hb1
        have := hk c hc
        omega

theorem layerRegionStyle_pairwise {start stop : Nat} :
    ∀ (attrs : List StyleAttr) (s : Stylizer),
    s.Pairwise (fun a b => a.1 < b.1) →
    (layerRegionStyle s start stop attrs).Pairwise (fun a b => a.1 < b.1) := by
  intro attrs
  induction attrs with
  | nil => intro s h; exact h
  | cons a rest ih =>
    intro s h
    simp only [layerRegionStyle, List.foldl_cons]
    exact ih _ (pointsInsert_pairwise (pointsInsert_pairwise h))

theorem mkStylizer_pairwise (calls : List (Nat × Nat × List StyleAttr)) :
    (mkStylizer calls).Pairwise (fun a b => a.1 < b.1) := by
  suffices h : ∀ (cs : List (Nat × Nat × List StyleAttr)) (s : Stylizer),
      s.Pairwise (fun a b => a.1 < b.1) →
      (cs.foldl (fun s c => layerRegionStyle s c.1 c.2.1 c.2.2) s).Pairwise
        (fun a b => a.1 < b.1) from h calls [] List.Pairwise.nil
  intro cs
  induction cs with
  | nil => intro s h; exact h
  | cons c rest ih =>
    intro s h
    simp only [List.foldl_cons]
    exact ih _ (layerRegionStyle_pairwise _ _ h)

/-! Consecutive key pairs. -/

/-- The consecutive pairs of a list: the interval boundaries of the regions. -/
def consecPairs : List Nat → List (Nat × Nat)
  | [] => []
  | [_] => []
  | a :: b :: rest => (a, b) :: consecPairs (b :: rest)

theorem consecPairs_mem_keys : ∀ {ks : List Nat} {ab : Nat × Nat},
    ab ∈ consecPairs ks → ab.1 ∈ ks ∧ ab.2 ∈ ks := by
  intro ks
  induction ks with
  | nil => intro ab hab; simp [consecPairs] at hab
  | cons k1 rest ih =>
    cases rest with
    | nil => intro ab hab; simp [consecPairs] at hab
    | cons k2 rest2 =>
      intro ab hab
      simp only [consecPairs] at hab
      rcases List.mem_cons.mp hab with rfl | hab
      · exact ⟨List.mem_cons_self _ _, List.mem_cons_of_mem _ (List.mem_cons_self _ _)⟩
      · obtain ⟨h1, h2⟩ := ih hab
        exact ⟨List.mem_cons_of_mem _ h1, List.mem_cons_of_mem _ h2⟩

theorem consecPairs_pairwise : ∀ {ks : List Nat}, ks.Pairwise (· < ·) →
    (consecPairs ks).Pairwise (fun ab cd => ab.2 ≤ cd.1) := by
  intro ks
  induction ks with
  | nil => intro _; simp [consecPairs]
  | cons k1 rest ih =>
    cases rest with
    | nil => intro _; simp [consecPairs]
    | cons k2 rest2 =>
      intro h
      rw [List.pairwise_cons] at h
      obtain ⟨hk1, hrest⟩ := h
      simp only [consecPairs]
      refine List.pairwise_cons.mpr ⟨?_, ih hrest⟩
      intro cd hcd
      have h1 := (consecPairs_mem_keys hcd).1
      rcases List.mem_cons.mp h1 with h2 | h2
      · omega
      · have := List.rel_of_pairwise_cons hrest h2
        omega

theorem consecPairs_length : ∀ (ks : List Nat), (consecPairs ks).length = ks.length - 1 := by
  intro ks
  induction ks with
  | nil => simp [consecPairs]
  | cons k1 rest ih =>
    cases rest with
    | nil => simp [consecPairs]
    | cons k2 rest2 =>
      simp only [consecPairs, List.length_cons] at ih ⊢
      omega

theorem consecPairs_cover : ∀ (ks : List Nat), ks.Pairwise (· < ·) → ∀ (p : Nat),
    ((∃ ab ∈ consecPairs ks, ab.1 ≤ p ∧ p < ab.2) ↔
      ((∃ k ∈ ks, k ≤ p) ∧ (∃ k ∈ ks, p < k))) := by
  intro ks
  induction ks with
  | nil => intro _ p; simp [consecPairs]
  | cons k1 rest ih =>
    cases rest with
    | nil =>
      intro _ p
      simp only [consecPairs, List.mem_singleton]
      constructor
      · rintro ⟨ab, hab, -⟩
        simp at hab
      · rintro ⟨⟨a, ha, hap⟩, ⟨b, hb, hpb⟩⟩
        subst ha hb
        omega
    | cons k2 rest2 =>
      intro h p
      rw [List.pairwise_cons] at h
      obtain ⟨hk1, hrest⟩ := h
      have hk12 : k1 < k2 := hk1 k2 (List.mem_cons_self _ _)
      have hall : ∀ b ∈ k2 :: rest2, k2 ≤ b := by
        intro b hb
        rcases List.mem_cons.mp hb with rfl | hb
        · exact le_refl _
        · exact le_of_lt (List.rel_of_pairwise_cons hrest hb)
      simp only [consecPairs]
      constructor
      · rintro ⟨ab, hab, hab1, hab2⟩
        rcases List.mem_cons.mp hab with rfl | hab
        · exact ⟨⟨k1, List.mem_cons_self _ _, hab1⟩,
            ⟨k2, List.mem_cons_of_mem _ (List.mem_cons_self _ _), hab2⟩⟩
        · obtain ⟨hm1, hm2⟩ := consecPairs_mem_keys hab
          exact ⟨⟨ab.1, List.mem_cons_of_mem _ hm1, hab1⟩,
            ⟨ab.2, List.mem_cons_of_mem _ hm2, hab2⟩⟩
      · rintro ⟨⟨a, ha, hap⟩, ⟨b, hb, hpb⟩⟩
        by_cases hp : p < k2
        · refine ⟨(k1, k2), List.mem_cons_self _ _, ?_, hp⟩
          rcases List.mem_cons.mp ha with rfl | ha2
          · exact hap
          · have := hall a ha2
            omega
        · have hex : ∃ k ∈ k2 :: rest2, p < k := by
            rcases List.mem_cons.mp hb with rfl | hb2
            · omega
            · exact ⟨b, hb2, hpb⟩
          have hex2 : ∃ k ∈ k2 :: rest2, k ≤ p := ⟨k2, List.mem_cons_self _ _, by omega⟩
          obtain ⟨ab, hab, habp⟩ := (ih hrest p).mpr ⟨hex2, hex⟩
          exact ⟨ab, List.mem_cons_of_mem _ hab, habp⟩

/-! The shape and styles of the computed regions. -/

theorem regionsGo_shape : ∀ (pts : Stylizer) (attrs : List StyleAttr),
    (regionsGo attrs pts).map (fun r => (r.1, r.2.1)) = consecPairs (pts.map Prod.fst) := by
  intro pts
  induction pts with
  | nil => intro attrs; simp [regionsGo, consecPairs]
  | cons x rest ih =>
    cases rest with
    | nil => intro attrs; simp [regionsGo, consecPairs]
    | cons y rest2 =>
      obtain ⟨p, ms⟩ := x
      obtain ⟨q, ms2⟩ := y
      intro attrs
      simp only [regionsGo, List.map_cons, consecPairs]
      rw [ih]
      simp [consecPairs]

theorem regionsGo_get : ∀ (pts : Stylizer) (attrs : List StyleAttr) (i : Nat)
    (h : i < (regionsGo attrs pts).length),
    (regionsGo attrs pts).get ⟨i, h⟩ =
      ((pts.map Prod.fst).getD i 0, (pts.map Prod.fst).getD (i + 1) 0,
       ConcreteStyle.new (((pts.take (i + 1)).map Prod.snd).foldl extendAttrs attrs)) := by
  intro pts
  induction pts with
  | nil => intro attrs i h; simp [regionsGo] at h
  | cons x rest ih =>
    cases rest with
    | nil => intro attrs i h; simp [regionsGo] at h
    | cons y rest2 =>
      obtain ⟨p, ms⟩ := x
      obtain ⟨q, ms2⟩ := y
      intro attrs i h
      cases i with
      | zero => simp [regionsGo, List.getD]
      | succ j =>
        simp only [regionsGo, List.get_cons_succ]
        rw [ih]
        simp [List.getD]

/-! The amended C9 statement. -/

/-- C9 amended: for every sequence of `layer_region_style` calls, the regions
of `compute_regions` (a) cover exactly the positions between the smallest and
the largest stylization point (half-open), (b) are pairwise disjoint (each
region ends at or before any later region's start), and (c) the `i`-th region
runs between the `i`-th and `(i+1)`-th stylization points and carries
`ConcreteStyle::new` of the attribute vector obtained by folding
`extend_attrs` over the boundary modifications of the first `i+1` points —
the swap-remove order of that vector, not the layering order, decides which
`Fg`/`Bg` wins. -/
theorem computeRegions_union_disjoint_styles (calls : List (Nat × Nat × List StyleAttr)) :
    (∀ p : Nat,
      (∃ r ∈ computeRegions (mkStylizer calls), r.1 ≤ p ∧ p < r.2.1) ↔
      ((∃ k ∈ (mkStylizer calls).map Prod.fst, k ≤ p) ∧
       (∃ k ∈ (mkStylizer calls).map Prod.fst, p < k))) ∧
    (computeRegions (mkStylizer calls)).Pairwise (fun r r2 => r.2.1 ≤ r2.1) ∧
    (computeRegions (mkStylizer calls)).length = (mkStylizer calls).length - 1 ∧
    (∀ (i : Nat) (h : i < (computeRegions (mkStylizer calls)).length),
      (computeRegions (mkStylizer calls)).get ⟨i, h⟩ =
        (((mkStylizer calls).map Prod.fst).getD i 0,
         ((mkStylizer calls).map Prod.fst).getD (i + 1) 0,
         ConcreteStyle.new ((((mkStylizer calls).take (i + 1)).map Prod.snd).foldl
           extendAttrs []))) := by
  have hkeys : ((mkStylizer calls).map Prod.fst).Pairwise (· < ·) := by
    rw [List.pairwise_map]
    exact mkStylizer_pairwise calls
  have hshape := regionsGo_shape (mkStylizer calls) []
  refine ⟨?_, ?_, ?_, ?_⟩
  · intro p
    rw [show (∃ r ∈ computeRegions (mkStylizer calls), r.1 ≤ p ∧ p < r.2.1) ↔
        (∃ ab ∈ (computeRegions (mkStylizer calls)).map (fun r => (r.1, r.2.1)),
          ab.1 ≤ p ∧ p < ab.2) by
      constructor
      · rintro ⟨r, hr, hr1, hr2⟩
        exact ⟨(r.1, r.2.1), List.mem_map_of_mem _ hr, hr1, hr2⟩
      · rintro ⟨ab, hab, hab1, hab2⟩
        obtain ⟨r, hr, hrab⟩ := List.mem_map.mp hab
        subst hrab
        exact ⟨r, hr, hab1, hab2⟩]
    rw [computeRegions, hshape]
    exact consecPairs_cover _ hkeys p
  · have hpw := consecPairs_pairwise hkeys
    rw [← hshape, List.pairwise_map] at hpw
    exact hpw
  · have hlen := congrArg List.length hshape
    simp only [List.length_map] at hlen
    rw [computeRegions, hlen, consecPairs_length, List.length_map]
  · intro i h
    exact regionsGo_get (mkStylizer calls) [] i h

/-- Witness for the amended C9 theorem, instantiated at the layering `calls0`
of the counterexample: position 5 is covered, and the first region can be
read off through the theorem. -/
theorem computeRegions_amended_witness :
    (∃ r ∈ computeRegions (mkStylizer calls0), r.1 ≤ 5 ∧ 5 < r.2.1) ∧
    (computeRegions (mkStylizer calls0)).get ⟨0, by decide⟩ =
      (((mkStylizer calls0).map Prod.fst).getD 0 0,
       ((mkStylizer calls0).map Prod.fst).getD 1 0,
       ConcreteStyle.new ((((mkStylizer calls0).take 1).map Prod.snd).foldl extendAttrs [])) :=
  ⟨((computeRegions_union_disjoint_styles calls0).1 5).mpr ⟨by decide, by decide⟩,
   (computeRegions_union_disjoint_styles calls0).2.2.2 0 (by decide)⟩

end Yaz
